import Mathlib

/-!
Verification of the Memento-pattern notebook
(`src/software_design/design_patterns/memento/momento.ipynb`).

The notebook defines, in Python:
* a "before" `Editor` that stores its own undo history (it appends the
  pre-mutation content to `self._history` inside `add_text`, and `undo`
  pops the last saved content, printing a message on an empty history);
* the refactored trio `EditorState` (memento), `Editor` (originator) and
  `History` (caretaker), where `History.push` appends to `self._states`,
  `History.pop` pops the last element and returns `None` on an empty list.

Python lists append and pop at the *end*; our `List` embeddings keep the
same orientation (most-recent-last), using `l ++ [x]`, `getLast?` and
`dropLast`.  Strings are immutable in Python, so `EditorState` holding the
string by reference is a genuine by-value snapshot; the embedding uses
plain `String`.

The repository's spec additionally describes a generalized caretaker with
a redo sequence and an optional maximum capacity.  That code does not
exist in the notebook, so it is modelled separately (`HistoryS`) from the
spec's words.
-/

/-- The memento: Python `EditorState.__init__` stores `content`. -/
structure EditorState where
  content : String
deriving DecidableEq, Repr

/-- Python `EditorState.get_content`. -/
def EditorState.get_content (s : EditorState) : String :=
  s.content

/-- The refactored originator: Python `Editor` with a single `_content` field. -/
structure Editor where
  content : String
deriving DecidableEq, Repr

/-- Python `Editor.__init__`: `self._content = ""`. -/
def Editor.init : Editor :=
  ⟨""⟩

/-- Python `Editor.add_text`: `self._content += words`. -/
def Editor.add_text (e : Editor) (words : String) : Editor :=
  ⟨e.content ++ words⟩

/-- Python `Editor.get_content`. -/
def Editor.get_content (e : Editor) : String :=
  e.content

/-- Python `Editor.get_state`: returns `EditorState(self._content)`. -/
def Editor.get_state (e : Editor) : EditorState :=
  ⟨e.content⟩

/-- Python `Editor.restore_state`: `self._content = state.get_content()`. -/
def Editor.restore_state (_e : Editor) (state : EditorState) : Editor :=
  ⟨state.get_content⟩

/-- The caretaker: Python `History` with its `_states` list
(most-recent-last, as in the Python list). -/
structure History where
  states : List EditorState
deriving DecidableEq, Repr

/-- Python `History.__init__`: `self._states = []`. -/
def History.init : History :=
  ⟨[]⟩

/-- Python `History.push`: `self._states.append(state)`. -/
def History.push (h : History) (state : EditorState) : History :=
  ⟨h.states ++ [state]⟩

/-- Python `History.pop`: if `self._states` is non-empty, pop and return the
last element; otherwise return `None` (list untouched).  The state-passing
embedding returns the popped value together with the updated history. -/
def History.pop (h : History) : Option EditorState × History :=
  match h.states.getLast? with
  | some s => (some s, ⟨h.states.dropLast⟩)
  | none => (none, h)

/-- The "before" editor of the notebook: `_content` plus its own
`_history` list of previous contents (most-recent-last). -/
structure EditorB where
  content : String
  history : List String
deriving DecidableEq, Repr

/-- Python before-`Editor.__init__`. -/
def EditorB.init : EditorB :=
  ⟨"", []⟩

/-- Python before-`Editor.add_text`: appends the *current* content to
`_history`, then `self._content += words`. -/
def EditorB.add_text (e : EditorB) (words : String) : EditorB :=
  ⟨e.content ++ words, e.history ++ [e.content]⟩

/-- Python before-`Editor.get_content`. -/
def EditorB.get_content (e : EditorB) : String :=
  e.content

/-- Python before-`Editor.undo`: if `_history` is non-empty, restore the
last saved content; otherwise print "No states to undo." and change
nothing (printing does not affect the object's state). -/
def EditorB.undo (e : EditorB) : EditorB :=
  match e.history.getLast? with
  | some s => ⟨s, e.history.dropLast⟩
  | none => e

/-- The notebook's illustrated undo step `editor.restore_state(history.pop())`,
made total by returning `none` when `pop` yields `None` (in Python that call
would raise `AttributeError`, since `None` has no `get_content`). -/
def undoViaPop (e : Editor) (h : History) : Option (Editor × History) :=
  match h.pop with
  | (some s, h') => some (e.restore_state s, h')
  | (none, _) => none

/-- One `apply`-then-`capture`-then-`push` round of the illustrated usage:
`editor.add_text(w); history.push(editor.get_state())`. -/
def applyAndSave (p : Editor × History) (w : String) : Editor × History :=
  (p.1.add_text w, (p.1.add_text w).get_state |> p.2.push)

/-- The illustrated usage: fresh editor and history, the initial empty
state pre-seeded (`history.push(editor.get_state())`), then one
`applyAndSave` round per word. -/
def memScenario (ws : List String) : Editor × History :=
  ws.foldl applyAndSave (Editor.init, History.init.push Editor.init.get_state)

/-- One undo step of the illustrated usage,
`editor.restore_state(history.pop())`, as a no-op when the pop fails
(within the scenarios we prove about, the pop always succeeds). -/
def undoRestore (p : Editor × History) : Editor × History :=
  match p.2.pop with
  | (some s, h') => (p.1.restore_state s, h')
  | (none, h') => (p.1, h')

/-- `k` successive `undoRestore` steps. -/
def undoRestoreN : Nat → Editor × History → Editor × History
  | 0, p => p
  | k + 1, p => undoRestoreN k (undoRestore p)

/-- Helper: the editor contents saved by successive `applyAndSave` rounds
starting from content `c`: after each word the new cumulative content is
snapshotted. -/
def savedStates (c : String) : List String → List EditorState
  | [] => []
  | w :: ws => ⟨c ++ w⟩ :: savedStates (c ++ w) ws

/-- Helper: the editor content after appending all words of `ws` to `c`. -/
def finalEditor (c : String) : List String → Editor
  | [] => ⟨c⟩
  | w :: ws => finalEditor (c ++ w) ws

/-- A later operation on the refactored `Editor` — the notebook's two
mutators, `add_text` and `restore_state`. -/
inductive EditorOp where
  | addText (words : String)
  | restoreState (s : EditorState)
deriving DecidableEq, Repr

/-- Apply one `EditorOp` to an `Editor`. -/
def applyOp (e : Editor) : EditorOp → Editor
  | .addText w => e.add_text w
  | .restoreState s => e.restore_state s

/-- Apply a sequence of `EditorOp`s to an `Editor`. -/
def applyOps (e : Editor) (ops : List EditorOp) : Editor :=
  ops.foldl applyOp e

/-- Capture a snapshot of `e`, then run any later operations on the editor;
returns the final editor together with the snapshot captured at the start. -/
def runWithSnapshot (e : Editor) (ops : List EditorOp) : Editor × EditorState :=
  (applyOps e ops, e.get_state)

/-- A command of the before/after comparison: either append words or undo. -/
inductive Cmd where
  | add (words : String)
  | undo
deriving DecidableEq, Repr

/-- Run one command on the "before" editor. -/
def stepB (e : EditorB) : Cmd → EditorB
  | .add w => e.add_text w
  | .undo => e.undo

/-- Run a command sequence on the "before" editor from its initial state. -/
def runB (cmds : List Cmd) : EditorB :=
  cmds.foldl stepB EditorB.init

/-- Run one command on the memento composition in which
`history.push(editor.get_state())` happens immediately before each
`add_text` and undo is `editor.restore_state(history.pop())`; undo on an
empty history is undefined (`restore_state(None)` raises in Python), so the
step returns `none` there. -/
def stepA (p : Editor × History) : Cmd → Option (Editor × History)
  | .add w => some (p.1.add_text w, p.2.push p.1.get_state)
  | .undo => undoViaPop p.1 p.2

/-- Run a command sequence on the memento composition from fresh objects. -/
def runA (cmds : List Cmd) : Option (Editor × History) :=
  cmds.foldlM stepA (Editor.init, History.init)

/-- Modelled from the spec: the notebook's `History` has no redo sequence
and no capacity bound; the spec's generalized caretaker ("an ordered,
last-in-first-out sequence of Snapshots, plus an optional redo sequence",
"optionally a maximum capacity") is missing from the source, so it is
modelled here from the spec's words in §3–§4. -/
structure HistoryS where
  undoSeq : List EditorState
  redoSeq : List EditorState
  maxSize : Option Nat
deriving DecidableEq, Repr

/-- Modelled from the spec: `push(snapshot)` appends to the undo sequence;
if a maximum capacity is configured and the sequence would exceed it, the
oldest entry is discarded first (FIFO eviction at the opposite end from
push/pop); the redo sequence is cleared. -/
def HistoryS.push (h : HistoryS) (s : EditorState) : HistoryS :=
  let u := h.undoSeq ++ [s]
  let u' := match h.maxSize with
    | some cap => if cap < u.length then u.tail else u
    | none => u
  { undoSeq := u', redoSeq := [], maxSize := h.maxSize }

/-- Modelled from the spec: `undo()` removes and returns the most recently
pushed entry and appends it to the redo sequence; on an empty undo sequence
it signals `EmptyHistory` (embedded as `none`) and changes nothing. -/
def HistoryS.undo (h : HistoryS) : Option EditorState × HistoryS :=
  match h.undoSeq.getLast? with
  | some s =>
    (some s,
      { undoSeq := h.undoSeq.dropLast, redoSeq := h.redoSeq ++ [s],
        maxSize := h.maxSize })
  | none => (none, h)

/-- Modelled from the spec: `redo()` removes and returns the most recently
undone entry and appends it back to the undo sequence; on an empty redo
sequence it signals `EmptyHistory` and changes nothing. -/
def HistoryS.redo (h : HistoryS) : Option EditorState × HistoryS :=
  match h.redoSeq.getLast? with
  | some s =>
    (some s,
      { undoSeq := h.undoSeq ++ [s], redoSeq := h.redoSeq.dropLast,
        maxSize := h.maxSize })
  | none => (none, h)

/-- Modelled from the spec: a fresh history — both sequences empty — with
the given optional maximum capacity. -/
def HistoryS.emptyWithCap (cap : Option Nat) : HistoryS :=
  ⟨[], [], cap⟩

/-- `k` successive `undo` calls, keeping only the history. -/
def HistoryS.undoN : Nat → HistoryS → HistoryS
  | 0, h => h
  | k + 1, h => HistoryS.undoN k h.undo.2

/-- The spec's harness undo step: `History.undo()` then
`Originator.restore(result)`; a no-op on the editor when undo signals
`EmptyHistory`. -/
def undoRestoreS (e : Editor) (h : HistoryS) : Editor × HistoryS :=
  match h.undo with
  | (some s, h') => (e.restore_state s, h')
  | (none, h') => (e, h')

/-- The spec's harness redo step: `History.redo()` then
`Originator.restore(result)`; a no-op on the editor when redo signals
`EmptyHistory`. -/
def redoRestoreS (e : Editor) (h : HistoryS) : Editor × HistoryS :=
  match h.redo with
  | (some s, h') => (e.restore_state s, h')
  | (none, h') => (e, h')

/-- The simulation relation between the memento composition and the
"before" editor: equal current content, and the pushed snapshots' contents
equal the before-editor's saved history, in the same order. -/
def simInv (p : Editor × History) (b : EditorB) : Prop :=
  p.1.content = b.content ∧ p.2.states.map EditorState.content = b.history

theorem foldl_applyAndSave (ws : List String) (e : Editor) (h : History) :
    ws.foldl applyAndSave (e, h)
      = (finalEditor e.content ws, ⟨h.states ++ savedStates e.content ws⟩) := by
  induction ws generalizing e h with
  | nil => simp [finalEditor, savedStates]
  | cons w ws ih =>
    simp only [List.foldl_cons]
    rw [show applyAndSave (e, h) w
          = (⟨e.content ++ w⟩, ⟨h.states ++ [⟨e.content ++ w⟩]⟩) from rfl]
    rw [ih]
    simp [finalEditor, savedStates]

theorem memScenario_eq (ws : List String) :
    memScenario ws
      = (finalEditor "" ws, ⟨⟨""⟩ :: savedStates "" ws⟩) := by
  rw [memScenario, foldl_applyAndSave]
  rfl

theorem History.pop_concat (l : List EditorState) (s : EditorState) :
    History.pop ⟨l ++ [s]⟩ = (some s, ⟨l⟩) := by
  simp [History.pop, List.getLast?_concat, List.dropLast_concat]

theorem History.pop_nil :
    History.pop ⟨[]⟩ = (none, ⟨[]⟩) :=
  rfl

theorem undoRestore_concat (e : Editor) (l : List EditorState)
    (s : EditorState) :
    undoRestore (e, ⟨l ++ [s]⟩) = (⟨s.content⟩, ⟨l⟩) := by
  simp [undoRestore, History.pop_concat, Editor.restore_state,
    EditorState.get_content]

theorem undoRestoreN_pops (l₂ : List EditorState) :
    ∀ (l₁ : List EditorState) (e : Editor) (s : EditorState),
      l₂.head? = some s →
      undoRestoreN l₂.length (e, ⟨l₁ ++ l₂⟩) = (⟨s.content⟩, ⟨l₁⟩) := by
  induction l₂ using List.reverseRecOn with
  | nil =>
    intro l₁ e s hs
    simp at hs
  | append_singleton l₂ a ih =>
    intro l₁ e s hs
    have hlen : (l₂ ++ [a]).length = l₂.length + 1 := by simp
    rw [hlen, undoRestoreN]
    rw [show l₁ ++ (l₂ ++ [a]) = (l₁ ++ l₂) ++ [a] by simp]
    rw [undoRestore_concat]
    cases l₂ with
    | nil =>
      have : a = s := by simpa using hs
      subst this
      simp [undoRestoreN]
    | cons b l₂' =>
      exact ih l₁ ⟨a.content⟩ s (by simpa using hs)

theorem savedStates_length (ws : List String) :
    ∀ c, (savedStates c ws).length = ws.length := by
  induction ws with
  | nil => intro c; rfl
  | cons w ws ih => intro c; simp [savedStates, ih]

theorem savedStates_take (ws : List String) :
    ∀ (j : Nat) (c : String),
      savedStates c (ws.take j) = (savedStates c ws).take j := by
  induction ws with
  | nil => intro j c; simp [savedStates]
  | cons w ws ih =>
    intro j c
    cases j with
    | zero => simp [savedStates]
    | succ j => simp [savedStates, ih j]

theorem finalEditor_eq_getLastD (ws : List String) :
    ∀ c, finalEditor c ws = ⟨((savedStates c ws).getLastD ⟨c⟩).content⟩ := by
  induction ws with
  | nil => intro c; rfl
  | cons w ws ih =>
    intro c
    simp only [finalEditor, savedStates, List.getLastD_cons]
    exact ih (c ++ w)

theorem getLastD_take {α : Type u} (S : List α) (d : α) :
    ∀ j, j ≤ S.length → (S.take j).getLastD d = (d :: S).getD j d := by
  intro j hj
  cases j with
  | zero => simp
  | succ i =>
    have hi : i < S.length := by omega
    rw [List.getLastD_eq_getLast?, List.getLast?_eq_getElem?]
    have hidx : (S.take (i + 1)).length - 1 = i := by
      rw [List.length_take]; omega
    rw [hidx, List.getElem?_take]
    simp [hi, List.getD_cons_succ, List.getD_eq_getElem?_getD]

theorem undoRestoreN_memScenario (ws : List String) (k : Nat)
    (hk1 : 1 ≤ k) (hk2 : k ≤ ws.length + 1) :
    (undoRestoreN k (memScenario ws)).1
      = (memScenario (ws.take (ws.length + 1 - k))).1 := by
  set j := ws.length + 1 - k with hj
  set S := savedStates "" ws with hS
  set L := (⟨""⟩ : EditorState) :: S with hLdef
  have hSlen : S.length = ws.length := savedStates_length ws ""
  have hjS : j ≤ S.length := by omega
  have hLlen : L.length = ws.length + 1 := by simp [hLdef, hSlen]
  have hdlen : (L.drop j).length = k := by
    rw [List.length_drop, hLlen]; omega
  have hjlt : j < L.length := by rw [hLlen]; omega
  have hhead : (L.drop j).head? = some (L.getD j ⟨""⟩) := by
    rw [List.head?_drop, List.getElem?_eq_getElem hjlt,
      List.getD_eq_getElem?_getD, List.getElem?_eq_getElem hjlt]
    rfl
  have hsplit : L = L.take j ++ L.drop j := (List.take_append_drop j L).symm
  rw [memScenario_eq ws, memScenario_eq (ws.take j)]
  have hlhs :
      undoRestoreN k (finalEditor "" ws, ⟨L⟩)
        = (⟨(L.getD j ⟨""⟩).content⟩, ⟨L.take j⟩) := by
    rw [← hdlen]
    rw [show (⟨L⟩ : History) = ⟨L.take j ++ L.drop j⟩ by rw [← hsplit]]
    exact undoRestoreN_pops (L.drop j) (L.take j) (finalEditor "" ws)
      (L.getD j ⟨""⟩) hhead
  dsimp only
  rw [← hS, ← hLdef, hlhs]
  dsimp only
  rw [finalEditor_eq_getLastD (ws.take j) "", savedStates_take ws j "", ← hS,
    getLastD_take S ⟨""⟩ j hjS, ← hLdef]

theorem eq_dropLast_concat_of_getLast? {α : Type u} {l : List α} {s : α}
    (h : l.getLast? = some s) : l = l.dropLast ++ [s] := by
  have hne : l ≠ [] := by
    intro hc
    subst hc
    simp at h
  have h2 : l.getLast hne = s := by
    have h3 := List.getLast?_eq_getLast l hne
    rw [h3] at h
    exact Option.some_inj.mp h
  rw [← h2]
  exact (List.dropLast_append_getLast hne).symm

theorem HistoryS.undo_of_nil (h : HistoryS) (hu : h.undoSeq = []) :
    h.undo = (none, h) := by
  unfold HistoryS.undo
  rw [hu]
  rfl

theorem HistoryS.redo_of_nil (h : HistoryS) (hr : h.redoSeq = []) :
    h.redo = (none, h) := by
  unfold HistoryS.redo
  rw [hr]
  rfl

theorem HistoryS.undo_concat (l : List EditorState) (s : EditorState)
    (r : List EditorState) (m : Option Nat) :
    HistoryS.undo ⟨l ++ [s], r, m⟩ = (some s, ⟨l, r ++ [s], m⟩) := by
  unfold HistoryS.undo
  rw [List.getLast?_concat]
  simp [List.dropLast_concat]

theorem HistoryS.redo_concat (u : List EditorState) (l : List EditorState)
    (s : EditorState) (m : Option Nat) :
    HistoryS.redo ⟨u, l ++ [s], m⟩ = (some s, ⟨u ++ [s], l, m⟩) := by
  unfold HistoryS.redo
  rw [List.getLast?_concat]
  simp [List.dropLast_concat]

theorem foldl_push_cap (ss : List EditorState) :
    ∀ (u : List EditorState) (K : Nat), u.length ≤ K →
      ss.foldl HistoryS.push ⟨u, [], some K⟩
        = ⟨(u ++ ss).drop (u.length + ss.length - K), [], some K⟩ := by
  induction ss with
  | nil =>
    intro u K hu
    simp only [List.foldl_nil, List.append_nil, List.length_nil, Nat.add_zero]
    have h0 : u.length - K = 0 := by omega
    rw [h0, List.drop_zero]
  | cons s ss ih =>
    intro u K hu
    rw [List.foldl_cons]
    by_cases hcase : u.length = K
    · have hcond : K < (u ++ [s]).length := by simp; omega
      have hpush : HistoryS.push ⟨u, [], some K⟩ s
          = ⟨(u ++ [s]).tail, [], some K⟩ := by
        show (⟨if K < (u ++ [s]).length then (u ++ [s]).tail else u ++ [s],
            [], some K⟩ : HistoryS) = _
        rw [if_pos hcond]
      rw [hpush]
      have htl : (u ++ [s]).tail.length ≤ K := by
        rw [List.length_tail]
        simp
        omega
      rw [ih _ K htl]
      have harith : (u ++ [s]).tail.length + ss.length - K = ss.length := by
        rw [List.length_tail]
        simp
        omega
      have harith2 : u.length + (s :: ss).length - K = ss.length + 1 := by
        simp
        omega
      rw [harith, harith2]
      have hsplit : (u ++ [s]).tail ++ ss = ((u ++ [s]) ++ ss).drop 1 := by
        rw [List.drop_append_of_le_length (by simp), List.drop_one]
      rw [hsplit, List.drop_drop]
      have hcomm : 1 + ss.length = ss.length + 1 := Nat.add_comm 1 ss.length
      have hlist : (u ++ [s]) ++ ss = u ++ s :: ss := by simp
      rw [hcomm, hlist]
    · have hcond : ¬ K < (u ++ [s]).length := by simp; omega
      have hpush : HistoryS.push ⟨u, [], some K⟩ s
          = ⟨u ++ [s], [], some K⟩ := by
        show (⟨if K < (u ++ [s]).length then (u ++ [s]).tail else u ++ [s],
            [], some K⟩ : HistoryS) = _
        rw [if_neg hcond]
      rw [hpush]
      have hle : (u ++ [s]).length ≤ K := by simp; omega
      rw [ih _ K hle]
      have harith : (u ++ [s]).length + ss.length = u.length + (s :: ss).length := by
        simp
        omega
      have hlist : (u ++ [s]) ++ ss = u ++ s :: ss := by simp
      rw [harith, hlist]

theorem undoN_of_length (K : Nat) :
    ∀ h : HistoryS, h.undoSeq.length = K → (HistoryS.undoN K h).undoSeq = [] := by
  induction K with
  | zero =>
    intro h hl
    exact List.length_eq_zero.mp hl
  | succ K ih =>
    intro h hl
    have hne : h.undoSeq ≠ [] := by
      intro hc
      rw [hc] at hl
      simp at hl
    cases hget : h.undoSeq.getLast? with
    | none =>
      exact absurd (List.getLast?_eq_none_iff.mp hget) hne
    | some s =>
      have hstep : h.undo.2
          = ⟨h.undoSeq.dropLast, h.redoSeq ++ [s], h.maxSize⟩ := by
        unfold HistoryS.undo
        rw [hget]
      rw [HistoryS.undoN, hstep]
      apply ih
      simp [List.length_dropLast]
      omega

theorem stepA_simInv (p : Editor × History) (b : EditorB) (c : Cmd)
    (hinv : simInv p b) (p' : Editor × History)
    (hstep : stepA p c = some p') : simInv p' (stepB b c) := by
  obtain ⟨hc, hh⟩ := hinv
  cases c with
  | add w =>
    have heq : some (p.1.add_text w, p.2.push p.1.get_state) = some p' := hstep
    have hp' : p' = (p.1.add_text w, p.2.push p.1.get_state) :=
      (Option.some_inj.mp heq).symm
    subst hp'
    constructor
    · show (p.1.add_text w).content = (b.add_text w).content
      simp [Editor.add_text, EditorB.add_text, hc]
    · show ((p.2.push p.1.get_state).states.map EditorState.content)
        = (b.add_text w).history
      simp [History.push, EditorB.add_text, List.map_append, hh, hc,
        Editor.get_state, EditorState.content]
  | undo =>
    cases hget : p.2.states.getLast? with
    | none =>
      have hpop : p.2.pop = (none, p.2) := by
        unfold History.pop
        rw [hget]
      have : (none : Option (Editor × History)) = some p' := by
        have h1 : stepA p Cmd.undo = undoViaPop p.1 p.2 := rfl
        rw [h1] at hstep
        unfold undoViaPop at hstep
        rw [hpop] at hstep
        exact hstep
      exact absurd this (by simp)
    | some s =>
      have hdecomp : p.2.states = p.2.states.dropLast ++ [s] :=
        eq_dropLast_concat_of_getLast? hget
      have hpop : p.2.pop = (some s, ⟨p.2.states.dropLast⟩) := by
        unfold History.pop
        rw [hget]
      have hres : undoViaPop p.1 p.2
          = some (⟨s.content⟩, ⟨p.2.states.dropLast⟩) := by
        unfold undoViaPop
        rw [hpop]
        rfl
      have hp' : p' = (⟨s.content⟩, ⟨p.2.states.dropLast⟩) := by
        have h1 : stepA p Cmd.undo = undoViaPop p.1 p.2 := rfl
        rw [h1, hres] at hstep
        exact (Option.some_inj.mp hstep).symm
      subst hp'
      have hbh : b.history = (p.2.states.dropLast).map EditorState.content
          ++ [s.content] := by
        rw [← hh]
        conv_lhs => rw [hdecomp]
        simp [List.map_append]
      have hbundo : b.undo
          = ⟨s.content, (p.2.states.dropLast).map EditorState.content⟩ := by
        unfold EditorB.undo
        rw [hbh, List.getLast?_concat, List.dropLast_concat]
      show simInv (⟨s.content⟩, ⟨p.2.states.dropLast⟩) b.undo
      rw [hbundo]
      exact ⟨rfl, rfl⟩

theorem foldlM_stepA_simInv (cmds : List Cmd) :
    ∀ (p₀ : Editor × History) (b₀ : EditorB), simInv p₀ b₀ →
      ∀ p, cmds.foldlM stepA p₀ = some p →
        simInv p (cmds.foldl stepB b₀) := by
  induction cmds with
  | nil =>
    intro p₀ b₀ hinv p hp
    have hpp : p₀ = p := by
      rw [List.foldlM_nil] at hp
      exact Option.some_inj.mp hp
    rw [List.foldl_nil, ← hpp]
    exact hinv
  | cons c cmds ih =>
    intro p₀ b₀ hinv p hp
    rw [List.foldl_cons]
    rw [List.foldlM_cons] at hp
    cases hc : stepA p₀ c with
    | none =>
      rw [hc] at hp
      simp at hp
    | some p₁ =>
      rw [hc] at hp
      have hp2 : cmds.foldlM stepA p₁ = some p := by
        simpa using hp
      exact ih p₁ (stepB b₀ c) (stepA_simInv p₀ b₀ c hinv p₁ hc) p hp2

theorem undo_redo_concat (e : Editor) (d r : List EditorState)
    (m : Option Nat) :
    redoRestoreS (undoRestoreS e ⟨d ++ [e.get_state], r, m⟩).1
        (undoRestoreS e ⟨d ++ [e.get_state], r, m⟩).2
      = (e, ⟨d ++ [e.get_state], r, m⟩) := by
  have h2 : undoRestoreS e ⟨d ++ [e.get_state], r, m⟩
      = (e.restore_state e.get_state, ⟨d, r ++ [e.get_state], m⟩) := by
    unfold undoRestoreS
    rw [HistoryS.undo_concat]
  rw [h2]
  unfold redoRestoreS
  rw [HistoryS.redo_concat]
  dsimp only
  have h4 : (e.restore_state e.get_state).restore_state e.get_state = e := by
    cases e
    rfl
  rw [h4]

/-- C1 fails as stated: in the illustrated scenario (`apply("Hello, ")`,
`apply("world!")`, a snapshot pushed after each apply, the initial `""`
snapshot pre-seeded), the *first* undo+restore yields `"Hello, world!"` —
the state after the 2nd (last) apply — not `"Hello, "`. -/
theorem c1_first_undo_counterexample :
    (undoRestoreN 1 (memScenario ["Hello, ", "world!"])).1.get_content
        = "Hello, world!" ∧
      ¬ (undoRestoreN 1 (memScenario ["Hello, ", "world!"])).1.get_content
          = "Hello, " := by
  refine ⟨rfl, fun hcontra => ?_⟩
  rw [show (undoRestoreN 1 (memScenario ["Hello, ", "world!"])).1.get_content
      = "Hello, world!" from rfl] at hcontra
  exact absurd hcontra (by decide)

/-- C1 (amended): with the initial `""` snapshot pre-seeded and a snapshot
pushed after each of the `N` applies, the `k`-th undo+restore
(`1 ≤ k ≤ N+1`) restores the editor to the content it had after the first
`N+1-k` applies: the first undo+restore returns the state after the `N`-th
apply (the current state), the second the state after the `(N-1)`-th, and
the `(N+1)`-th the initial state — reverse chronological order shifted by
one from the claim. -/
theorem c1_undo_reverse_order (ws : List String) (k : Nat)
    (hk1 : 1 ≤ k) (hk2 : k ≤ ws.length + 1) :
    (undoRestoreN k (memScenario ws)).1.get_content
      = (memScenario (ws.take (ws.length + 1 - k))).1.get_content := by
  rw [undoRestoreN_memScenario ws k hk1 hk2]

/-- Witness for C1 (amended) at the notebook's concrete scenario: the third
undo+restore returns the initial empty state. -/
theorem c1_undo_reverse_order_witness :
    1 ≤ 3 ∧ 3 ≤ (["Hello, ", "world!"] : List String).length + 1 ∧
      (undoRestoreN 3 (memScenario ["Hello, ", "world!"])).1.get_content
        = (memScenario ((["Hello, ", "world!"] : List String).take
            ((["Hello, ", "world!"] : List String).length + 1 - 3))).1.get_content :=
  ⟨by decide, by decide,
    c1_undo_reverse_order ["Hello, ", "world!"] 3 (by decide) (by decide)⟩

/-- C2: `History.pop` on an empty history signals the empty condition
(returns `None`) and leaves the history unchanged — so every subsequent
operation behaves exactly as before the failed call — and the naive
before-Editor's `undo` on an empty history leaves the editor unchanged. -/
theorem c2_empty_pop_noop (h : History) (e : EditorB)
    (hh : h.states = []) (he : e.history = []) :
    h.pop = (none, h) ∧ e.undo = e := by
  constructor
  · cases h with
    | mk l =>
      have hl : l = [] := hh
      subst hl
      rfl
  · cases e with
    | mk c hist =>
      have hl : hist = [] := he
      subst hl
      rfl

/-- Witness for C2 at the freshly constructed objects. -/
theorem c2_empty_pop_noop_witness :
    History.init.states = [] ∧ EditorB.init.history = [] ∧
      (History.init.pop = (none, History.init)
        ∧ EditorB.init.undo = EditorB.init) :=
  ⟨rfl, rfl, c2_empty_pop_noop History.init EditorB.init rfl rfl⟩

/-- C3 (modelled from the spec; the notebook's `History` has no redo):
every push clears the redo sequence — from any history state, after an
undo followed by a push, a `redo` call signals `EmptyHistory` and leaves
the history unchanged: the forward branch was discarded. -/
theorem c3_push_invalidates_redo (h : HistoryS) (s : EditorState) :
    (h.undo.2.push s).redo = (none, h.undo.2.push s) :=
  HistoryS.redo_of_nil _ rfl

/-- C4 (modelled from the spec; the notebook's `History` has no redo):
`undo()` immediately followed by `redo()` returns the History — both the
undo and the redo sequence — and the restored Originator state to exactly
what they were before the `undo()`.  The hypothesis states that the top
undo entry is the snapshot of the current editor state, which holds for
every state reached by the push-after-mutation discipline. -/
theorem c4_redo_inverts_undo (e : Editor) (h : HistoryS)
    (htop : h.undoSeq.getLast? = some e.get_state) :
    redoRestoreS (undoRestoreS e h).1 (undoRestoreS e h).2 = (e, h) := by
  cases h with
  | mk u r m =>
    have h1 : u = u.dropLast ++ [e.get_state] :=
      eq_dropLast_concat_of_getLast? htop
    rw [show (⟨u, r, m⟩ : HistoryS) = ⟨u.dropLast ++ [e.get_state], r, m⟩ by
      rw [← h1]]
    exact undo_redo_concat e u.dropLast r m

/-- Witness for C4 at a concrete editor and history. -/
theorem c4_redo_inverts_undo_witness :
    (HistoryS.mk [⟨""⟩, ⟨"ab"⟩] [] none).undoSeq.getLast?
        = some (Editor.mk "ab").get_state ∧
      redoRestoreS
          (undoRestoreS ⟨"ab"⟩ ⟨[⟨""⟩, ⟨"ab"⟩], [], none⟩).1
          (undoRestoreS ⟨"ab"⟩ ⟨[⟨""⟩, ⟨"ab"⟩], [], none⟩).2
        = (⟨"ab"⟩, ⟨[⟨""⟩, ⟨"ab"⟩], [], none⟩) :=
  ⟨by decide,
    c4_redo_inverts_undo ⟨"ab"⟩ ⟨[⟨""⟩, ⟨"ab"⟩], [], none⟩ (by decide)⟩

/-- C5 (modelled from the spec; the notebook's `History` has no capacity):
with maximum capacity `K` configured, after `K+1` pushes the oldest
snapshot has been evicted — the undo sequence holds exactly the last `K`
snapshots — and after `K` undos the next undo signals `EmptyHistory`, so
at most `K` undo calls succeed. -/
theorem c5_capacity_eviction (K : Nat) (ss : List EditorState)
    (hlen : ss.length = K + 1) :
    (ss.foldl HistoryS.push (HistoryS.emptyWithCap (some K))).undoSeq
        = ss.drop 1 ∧
      (HistoryS.undoN K
          (ss.foldl HistoryS.push (HistoryS.emptyWithCap (some K)))).undo.1
        = none := by
  have harg : ([] : List EditorState).length + ss.length - K = 1 := by
    rw [List.length_nil, hlen]
    omega
  have hfold : ss.foldl HistoryS.push (HistoryS.emptyWithCap (some K))
      = ⟨ss.drop 1, [], some K⟩ := by
    rw [show HistoryS.emptyWithCap (some K) = ⟨[], [], some K⟩ from rfl,
      foldl_push_cap ss [] K (by simp), harg, List.nil_append]
  constructor
  · rw [hfold]
  · have hlen2 : (HistoryS.mk (ss.drop 1) [] (some K)).undoSeq.length = K := by
      dsimp only
      rw [List.length_drop, hlen]
      omega
    have hempty := undoN_of_length K ⟨ss.drop 1, [], some K⟩ hlen2
    rw [hfold, HistoryS.undo_of_nil _ hempty]

/-- Witness for C5 with capacity 1 and two pushes. -/
theorem c5_capacity_eviction_witness :
    ([⟨"a"⟩, ⟨"b"⟩] : List EditorState).length = 1 + 1 ∧
      ((([⟨"a"⟩, ⟨"b"⟩] : List EditorState).foldl HistoryS.push
            (HistoryS.emptyWithCap (some 1))).undoSeq
          = ([⟨"a"⟩, ⟨"b"⟩] : List EditorState).drop 1 ∧
        (HistoryS.undoN 1
            (([⟨"a"⟩, ⟨"b"⟩] : List EditorState).foldl HistoryS.push
              (HistoryS.emptyWithCap (some 1)))).undo.1 = none) :=
  ⟨by decide, c5_capacity_eviction 1 [⟨"a"⟩, ⟨"b"⟩] (by decide)⟩

/-- C6: round-trip — `restore_state(get_state())` leaves the editor's
observable content unchanged: `get_content` agrees before and after. -/
theorem c6_round_trip (e : Editor) :
    (e.restore_state e.get_state).get_content = e.get_content :=
  rfl

/-- C7: snapshot immutability — the snapshot captured by `get_state`
returns (via `get_content`) the content at capture time, and no later
sequence of `add_text` / `restore_state` operations on the editor alters
it. -/
theorem c7_snapshot_immutable (e : Editor) (ops : List EditorOp) :
    (runWithSnapshot e ops).2 = e.get_state ∧
      (runWithSnapshot e ops).2.get_content = e.get_content :=
  ⟨rfl, rfl⟩

/-- C8: the History is a last-in-first-out container — push then pop
returns exactly the pushed snapshot and leaves the undo sequence equal to
the sequence before the push. -/
theorem c8_push_pop_lifo (h : History) (s : EditorState) :
    (h.push s).pop = (some s, h) := by
  cases h with
  | mk l =>
    rw [show History.push ⟨l⟩ s = ⟨l ++ [s]⟩ from rfl, History.pop_concat]

/-- C9: `History.pop` on an empty history returns `None` (history
unchanged), a value of the `Option` type distinct from every snapshot, and
the illustrated undo path `restore_state(pop())` is well-defined exactly
when the history is non-empty — with an empty history it yields `none`,
since in Python `None.get_content()` raises `AttributeError`. -/
theorem c9_pop_none_guard (e : Editor) (h : History) :
    History.pop ⟨[]⟩ = (none, ⟨[]⟩) ∧
      (undoViaPop e h).isSome = !h.states.isEmpty := by
  refine ⟨rfl, ?_⟩
  cases h with
  | mk l =>
    induction l using List.reverseRecOn with
    | nil => rfl
    | append_singleton l s _ =>
      have hres : undoViaPop e ⟨l ++ [s]⟩
          = some (e.restore_state s, ⟨l⟩) := by
        unfold undoViaPop
        rw [History.pop_concat]
      rw [hres]
      simp

/-- C10 fails as stated: on the command sequence `[undo]` the before-editor
no-ops (content stays `""`) while the memento composition's
`restore_state(pop())` is undefined — `pop()` returns `None` and
`restore_state(None)` raises — so the two are not observationally
equivalent on every command sequence. -/
theorem c10_empty_undo_counterexample :
    runA [Cmd.undo] = none ∧ (runB [Cmd.undo]).get_content = "" := by
  exact ⟨rfl, rfl⟩

/-- C10 (amended): the naive before-Editor and the memento composition
(push before each add_text, undo = `restore_state(pop())`) agree on
`get_content` after every command sequence on which the memento
composition is defined, i.e. every sequence in which no undo hits an empty
history; prefixes of a defined sequence are defined, so agreement holds
after every prefix. -/
theorem c10_before_after_equiv (cmds : List Cmd) (p : Editor × History)
    (hdef : runA cmds = some p) :
    p.1.get_content = (runB cmds).get_content := by
  have hinv : simInv (Editor.init, History.init) EditorB.init := ⟨rfl, rfl⟩
  have hrun := foldlM_stepA_simInv cmds (Editor.init, History.init)
    EditorB.init hinv p hdef
  exact hrun.1

/-- Witness for C10 (amended) on the sequence add "hi" then undo. -/
theorem c10_before_after_equiv_witness :
    runA [Cmd.add "hi", Cmd.undo] = some (⟨""⟩, ⟨[]⟩) ∧
      ((Editor.mk "", History.mk []) : Editor × History).1.get_content
        = (runB [Cmd.add "hi", Cmd.undo]).get_content :=
  ⟨rfl, c10_before_after_equiv [Cmd.add "hi", Cmd.undo] (⟨""⟩, ⟨[]⟩) rfl⟩
